import Mathlib

/-!
Shallow embedding of `src/kvstore.py` (class `KVStore`): an append-only
key-value store with a linear-scan in-memory index.

Strings are modelled as `List Char`.  The Python string primitives used by
the source (`str.strip`, `str.split(' ', 2)`, `str.upper`, iteration over
the lines of a file) are embedded below.  `strip` uses Python's full
Unicode whitespace set; file iteration uses text-mode universal newlines,
in which `\n`, `\r` and `\r\n` all terminate a line; `upper` is modelled
on the ASCII range (see its doc comment).  File contents are a
`List Char`; a store "constructed over a log file" is `mkStore content`.
Python's file iteration keeps the terminator on each line and yields no
final empty line, while the splitting below yields terminator-free pieces
plus a final empty piece when the content ends in a terminator; replay
strips each line and skips empty lines, so the two readings feed
identical data to the replay loop.
-/

set_option autoImplicit false

namespace KV

/-- Strings of the Python source, modelled as lists of characters. -/
abbrev Str := List Char

/-- The whitespace characters recognised by Python's `str.strip()`
(CPython's `Py_UNICODE_ISSPACE`): the ASCII whitespace `\t`, `\n`, `\v`,
`\f`, `\r`, space, the control characters U+001C through U+001F, and the
Unicode space characters U+0085, U+00A0, U+1680, U+2000 through U+200A,
U+2028, U+2029, U+202F, U+205F and U+3000. -/
def pyIsSpace (c : Char) : Bool :=
  (0x09 ≤ c.toNat && c.toNat ≤ 0x0d) || (0x1c ≤ c.toNat && c.toNat ≤ 0x20) ||
  c.toNat = 0x85 || c.toNat = 0xa0 || c.toNat = 0x1680 ||
  (0x2000 ≤ c.toNat && c.toNat ≤ 0x200a) ||
  c.toNat = 0x2028 || c.toNat = 0x2029 || c.toNat = 0x202f ||
  c.toNat = 0x205f || c.toNat = 0x3000

/-- Left half of Python's `str.strip()`: drop leading whitespace. -/
def stripLeft (l : Str) : Str := l.dropWhile pyIsSpace

/-- Right half of Python's `str.strip()`: drop trailing whitespace. -/
def stripRight (l : Str) : Str := (l.reverse.dropWhile pyIsSpace).reverse

/-- Python's `str.strip()`, over the full Unicode whitespace set. -/
def pyStrip (l : Str) : Str := stripRight (stripLeft l)

/-- Split at the first occurrence of `c`: `some (before, after)`, or `none`
when `c` does not occur. -/
def splitOnce (c : Char) : Str → Option (Str × Str)
  | [] => none
  | x :: xs =>
    if x = c then some ([], xs)
    else
      match splitOnce c xs with
      | none => none
      | some (a, r) => some (x :: a, r)

/-- Python's `s.split(' ', 2)`: at most two splits on single spaces, the
remainder (spaces included) kept as the last field. -/
def pySplit2 (s : Str) : List Str :=
  match splitOnce ' ' s with
  | none => [s]
  | some (a, r) =>
    match splitOnce ' ' r with
    | none => [a, r]
    | some (b, r2) => [a, b, r2]

/-- The ASCII fragment of Python's `str.upper()`.  Exotic non-ASCII case
mappings (such as U+017F upper-casing to `S`) are not modelled; the
command-filtering property is stated with this same function on both
sides, so the restriction is not load-bearing. -/
def pyUpper (s : Str) : Str := s.map Char.toUpper

/-- The token `SET`, the only command `_replay_log` recognises. -/
def setTok : Str := ['S', 'E', 'T']

/-- The body of the replay loop of `KVStore._replay_log` for one line:
strip the line, skip it when blank, split into at most three fields,
skip it when fewer than three result, and produce the `(key, value)`
entry exactly when the command field upper-cases to `SET`. -/
def lineEntry (line : Str) : Option (Str × Str) :=
  let l := pyStrip line
  if l = [] then none
  else
    match pySplit2 l with
    | [cmd, key, value] => if pyUpper cmd = setTok then some (key, value) else none
    | _ => none

/-- Split a character list on a separator character; always non-empty. -/
def splitOnChar (c : Char) : Str → List Str
  | [] => [[]]
  | x :: xs =>
    if x = c then [] :: splitOnChar c xs
    else
      match splitOnChar c xs with
      | [] => [[x]]
      | h :: t => (x :: h) :: t

/-- Split a character list at text-mode universal newlines, the line
discipline of Python's `open(path, 'r')`: `\n`, `\r` and `\r\n` each
terminate a line, with `\r\n` counting as a single terminator. -/
def splitUniv : Str → List Str
  | [] => [[]]
  | x :: xs =>
    if x = '\n' then [] :: splitUniv xs
    else if x = '\r' then
      match xs with
      | [] => [[], []]
      | y :: ys => if y = '\n' then [] :: splitUniv ys else [] :: splitUniv (y :: ys)
    else
      match splitUniv xs with
      | [] => [[x]]
      | h :: t => (x :: h) :: t

/-- The lines of a file's content, as fed to the replay loop (see the
file-level comment for the relation to Python's file iteration). -/
def pyLines (content : Str) : List Str := splitUniv content

/-- One iteration of the replay loop: append the line's entry to the
accumulated `entries`, or keep them unchanged when the line is skipped. -/
def replayStep (acc : List (Str × Str)) (line : Str) : List (Str × Str) :=
  match lineEntry line with
  | some e => acc ++ [e]
  | none => acc

/-- `KVStore._replay_log`: fold the loop body over the lines of the log,
starting from the empty `entries` list a fresh `KVStore` holds. -/
def replayEntries (lines : List Str) : List (Str × Str) :=
  lines.foldl replayStep []

/-- The state of a `KVStore`: the content of the log file at `log_path`
and the in-memory `entries` list. -/
structure Store where
  log : Str
  entries : List (Str × Str)

/-- The serialised record `KVStore.set` appends: `SET <key> <value>\n`. -/
def record (key value : Str) : Str :=
  ['S', 'E', 'T', ' '] ++ key ++ ' ' :: value ++ ['\n']

/-- `KVStore.__init__` over a file holding `content` (an absent file is
the empty content): remember the path's content and rebuild `entries`
by replaying the log. -/
def mkStore (content : Str) : Store :=
  ⟨content, replayEntries (pyLines content)⟩

/-- `KVStore.set`: append the serialised record to the log file (write,
flush, fsync), then append the pair to the in-memory `entries`. -/
def Store.set (s : Store) (key value : Str) : Store :=
  ⟨s.log ++ record key value, s.entries ++ [(key, value)]⟩

/-- The scan inside `KVStore.get`: walk `reversed(entries)` and return
the value of the first pair whose key matches. -/
def lookupRev : List (Str × Str) → Str → Option Str
  | [], _ => none
  | (k, v) :: rest, key => if k = key then some v else lookupRev rest key

/-- `KVStore.get`: last-write-wins lookup, `none` when the key is absent.
A pure function of the state: it returns no new `Store`. -/
def Store.get (s : Store) (key : Str) : Option Str :=
  lookupRev s.entries.reverse key

/-- Construct a store over an initially empty log and perform a sequence
of `set` calls. -/
def runSets (ops : List (Str × Str)) : Store :=
  ops.foldl (fun s p => s.set p.1 p.2) (mkStore [])

/-- The concatenated serialised records of a sequence of pairs. -/
def recordsOf : List (Str × Str) → Str
  | [] => []
  | p :: es => record p.1 p.2 ++ recordsOf es

/-- Join lines into a file content, terminating each with a newline. -/
def joinNl : List Str → Str
  | [] => []
  | l :: ls => l ++ '\n' :: joinNl ls

/-- Keys that survive the record format round trip verbatim: non-empty,
no space (the field separator), no newline (the record terminator). -/
abbrev GoodKey (k : Str) : Prop := k ≠ [] ∧ ' ' ∉ k ∧ '\n' ∉ k

/-- `true` exactly when the string is non-empty and its final character
is not whitespace (so `strip` on replay leaves it intact). -/
def lastNonSpace (v : Str) : Bool :=
  match v.reverse with
  | [] => false
  | c :: _ => !(pyIsSpace c)

/-- Values that survive the record format round trip verbatim: no line
terminator (neither `\n` nor `\r`, both of which end a line under
universal newlines), and a non-whitespace final character (in particular
non-empty), so that `strip` on replay leaves the value intact. -/
abbrev GoodVal (v : Str) : Prop := '\n' ∉ v ∧ '\r' ∉ v ∧ lastNonSpace v = true

/-- A round-trip-safe key under universal-newline reading: a `GoodKey`
that also contains no carriage return. -/
abbrev CleanKey (k : Str) : Prop := GoodKey k ∧ '\r' ∉ k

/-- Every operation of the sequence has a round-trip-safe key and value. -/
abbrev GoodOps (ops : List (Str × Str)) : Prop :=
  ∀ p ∈ ops, CleanKey p.1 ∧ GoodVal p.2

/-- Live states: reachable from a store over an initially empty log by
completed `set` calls. -/
inductive Live : Store → Prop
  | init : Live ⟨[], []⟩
  | step (s : Store) (k v : Str) : Live s → Live (s.set k v)

/-! ### Helper lemmas about the embedded string primitives -/

lemma splitOnce_of_not_mem {c : Char} {a : Str} (h : c ∉ a) :
    splitOnce c a = none := by
  induction a with
  | nil => rfl
  | cons x xs ih =>
    have hx : ¬x = c := fun hxc => h (hxc ▸ List.mem_cons_self x xs)
    have hxs : c ∉ xs := fun hm => h (List.mem_cons_of_mem x hm)
    simp [splitOnce, hx, ih hxs]

lemma splitOnce_append {c : Char} {a r : Str} (h : c ∉ a) :
    splitOnce c (a ++ c :: r) = some (a, r) := by
  induction a with
  | nil => simp [splitOnce]
  | cons x xs ih =>
    have hx : ¬x = c := fun hxc => h (hxc ▸ List.mem_cons_self x xs)
    have hxs : c ∉ xs := fun hm => h (List.mem_cons_of_mem x hm)
    simp [splitOnce, hx, ih hxs]

lemma splitOnChar_head_tail (c : Char) (s : Str) :
    ∃ h t, splitOnChar c s = h :: t ∧ h <+: s ∧ ∀ p ∈ t, p <:+: s := by
  induction s with
  | nil => exact ⟨[], [], rfl, List.nil_prefix, by simp⟩
  | cons x xs ih =>
    obtain ⟨h, t, heq, hpre, htl⟩ := ih
    by_cases hx : x = c
    · refine ⟨[], splitOnChar c xs, by simp [splitOnChar, hx], List.nil_prefix, ?_⟩
      intro p hp
      rw [heq] at hp
      rcases List.mem_cons.mp hp with rfl | hp2
      · exact List.infix_cons hpre.isInfix
      · exact List.infix_cons (htl p hp2)
    · refine ⟨x :: h, t, by simp [splitOnChar, hx, heq], ?_, ?_⟩
      · exact List.cons_prefix_cons.mpr ⟨rfl, hpre⟩
      · intro p hp
        exact List.infix_cons (htl p hp)

lemma infix_of_mem_splitOnChar {c : Char} {p s : Str} (hp : p ∈ splitOnChar c s) :
    p <:+: s := by
  obtain ⟨h, t, heq, hpre, htl⟩ := splitOnChar_head_tail c s
  rw [heq] at hp
  rcases List.mem_cons.mp hp with rfl | hp2
  · exact hpre.isInfix
  · exact htl p hp2

lemma splitUniv_cons_nl (xs : Str) : splitUniv ('\n' :: xs) = [] :: splitUniv xs := by
  rw [splitUniv.eq_def]
  simp

lemma splitUniv_cr_nil : splitUniv ['\r'] = [[], []] := by
  rw [splitUniv.eq_def]
  simp

lemma splitUniv_cr_nl (ys : Str) :
    splitUniv ('\r' :: '\n' :: ys) = [] :: splitUniv ys := by
  rw [splitUniv.eq_def]
  simp

lemma splitUniv_cr_cons {y : Char} (ys : Str) (hy : ¬y = '\n') :
    splitUniv ('\r' :: y :: ys) = [] :: splitUniv (y :: ys) := by
  rw [splitUniv.eq_def]
  simp [hy]

lemma splitUniv_cons_other {x : Char} {xs h : Str} {t : List Str}
    (hxn : ¬x = '\n') (hxr : ¬x = '\r') (hsp : splitUniv xs = h :: t) :
    splitUniv (x :: xs) = (x :: h) :: t := by
  rw [splitUniv.eq_def]
  simp [hxn, hxr, hsp]

lemma splitUniv_append_clean {l rest : Str} (hn : '\n' ∉ l) (hr : '\r' ∉ l) :
    splitUniv (l ++ '\n' :: rest) = l :: splitUniv rest := by
  induction l with
  | nil => simp only [List.nil_append]; exact splitUniv_cons_nl rest
  | cons x xs ih =>
    have hxn : ¬x = '\n' := fun h => hn (h ▸ List.mem_cons_self x xs)
    have hxr : ¬x = '\r' := fun h => hr (h ▸ List.mem_cons_self x xs)
    have hn' : '\n' ∉ xs := fun hm => hn (List.mem_cons_of_mem x hm)
    have hr' : '\r' ∉ xs := fun hm => hr (List.mem_cons_of_mem x hm)
    rw [List.cons_append, splitUniv_cons_other hxn hxr (ih hn' hr')]

lemma splitUniv_eq_splitOnChar {s : Str} (hn : '\n' ∉ s) :
    splitUniv s = splitOnChar '\r' s := by
  induction s with
  | nil => rfl
  | cons x xs ih =>
    have hxn : ¬x = '\n' := fun h => hn (h ▸ List.mem_cons_self x xs)
    have hn' : '\n' ∉ xs := fun hm => hn (List.mem_cons_of_mem x hm)
    by_cases hxr : x = '\r'
    · subst hxr
      cases xs with
      | nil => rw [splitUniv_cr_nil]; simp [splitOnChar]
      | cons y ys =>
        have hy : ¬y = '\n' := fun h => hn' (h ▸ List.mem_cons_self y ys)
        rw [splitUniv_cr_cons ys hy, ih hn']
        simp [splitOnChar]
    · obtain ⟨h2, t2, heq, -, -⟩ := splitOnChar_head_tail '\r' xs
      rw [splitUniv_cons_other hxn hxr (by rw [ih hn', heq])]
      simp [splitOnChar, hxr, heq]

lemma splitUniv_chunk {l : Str} (hn : '\n' ∉ l) :
    ∃ h t, h <+: l ∧ (∀ p ∈ t, p <:+: l) ∧
      ∀ X, splitUniv (l ++ '\n' :: X) = (h :: t) ++ splitUniv X := by
  induction l with
  | nil =>
    refine ⟨[], [], List.nil_prefix, by simp, fun X => ?_⟩
    simp only [List.nil_append]
    rw [splitUniv_cons_nl]
    rfl
  | cons x xs ih =>
    have hxn : ¬x = '\n' := fun h => hn (h ▸ List.mem_cons_self x xs)
    have hn' : '\n' ∉ xs := fun hm => hn (List.mem_cons_of_mem x hm)
    obtain ⟨h, t, hpre, htl, hX⟩ := ih hn'
    by_cases hxr : x = '\r'
    · subst hxr
      cases xs with
      | nil =>
        refine ⟨[], [], List.nil_prefix, by simp, fun X => ?_⟩
        rw [List.cons_append, List.nil_append, splitUniv_cr_nl]
        rfl
      | cons y ys =>
        have hy : ¬y = '\n' := fun h => hn' (h ▸ List.mem_cons_self y ys)
        refine ⟨[], h :: t, List.nil_prefix, ?_, fun X => ?_⟩
        · intro p hp
          rcases List.mem_cons.mp hp with rfl | hp2
          · exact List.infix_cons hpre.isInfix
          · exact List.infix_cons (htl p hp2)
        · rw [List.cons_append]
          rw [show (y :: ys ++ '\n' :: X : Str) = y :: (ys ++ '\n' :: X) from rfl]
          rw [splitUniv_cr_cons _ hy]
          rw [show (y :: (ys ++ '\n' :: X) : Str) = (y :: ys) ++ '\n' :: X from rfl]
          rw [hX X]
          rfl
    · refine ⟨x :: h, t, List.cons_prefix_cons.mpr ⟨rfl, hpre⟩, ?_, fun X => ?_⟩
      · intro p hp
        exact List.infix_cons (htl p hp)
      · rw [List.cons_append, splitUniv_cons_other hxn hxr (by rw [hX X]; rfl)]
        rfl

lemma splitUniv_joinNl {lines : List Str} (hl : ∀ l ∈ lines, '\n' ∉ l) :
    ∃ pre : List Str, ∀ X, splitUniv (joinNl lines ++ X) = pre ++ splitUniv X := by
  induction lines with
  | nil => exact ⟨[], fun X => by simp [joinNl]⟩
  | cons l ls ih =>
    obtain ⟨pre, hpre⟩ := ih fun m hm => hl m (List.mem_cons_of_mem l hm)
    obtain ⟨h, t, -, -, hchunk⟩ := splitUniv_chunk (hl l (List.mem_cons_self l ls))
    refine ⟨(h :: t) ++ pre, fun X => ?_⟩
    have harr : joinNl (l :: ls) ++ X = l ++ '\n' :: (joinNl ls ++ X) := by
      simp [joinNl]
    rw [harr, hchunk (joinNl ls ++ X), hpre X, List.append_assoc]

lemma stripLeft_cons_of_not_space {x : Char} (xs : Str)
    (h : pyIsSpace x = false) : stripLeft (x :: xs) = x :: xs := by
  simp [stripLeft, List.dropWhile_cons, h]

lemma stripRight_append_space {c : Char} (l : Str) (h : pyIsSpace c = true) :
    stripRight (l ++ [c]) = stripRight l := by
  simp [stripRight, List.dropWhile_cons, h]

lemma stripRight_of_lastNonSpace {l : Str} (h : lastNonSpace l = true) :
    stripRight l = l := by
  cases hrev : l.reverse with
  | nil => exact absurd (by simpa only [lastNonSpace, hrev] using h) Bool.false_ne_true
  | cons c t =>
    simp only [lastNonSpace, hrev, Bool.not_eq_true'] at h
    have hc : pyIsSpace c = false := h
    have : l.reverse.dropWhile pyIsSpace = l.reverse := by
      rw [hrev, List.dropWhile_cons, hc]; simp
    rw [stripRight, this, List.reverse_reverse]

lemma lastNonSpace_ne_nil {l : Str} (h : lastNonSpace l = true) : l ≠ [] := by
  intro hnil
  rw [hnil] at h
  exact absurd h (by simp [lastNonSpace])

lemma lastNonSpace_append {a v : Str} (hv : v ≠ []) :
    lastNonSpace (a ++ v) = lastNonSpace v := by
  unfold lastNonSpace
  cases hrev : v.reverse with
  | nil => exact absurd (List.reverse_eq_nil_iff.mp hrev) hv
  | cons c t => rw [List.reverse_append, hrev]; rfl

lemma pyStrip_of_good {l : Str} {x : Char} (hhead : pyIsSpace x = false)
    (hlast : lastNonSpace (x :: l) = true) : pyStrip (x :: l) = x :: l := by
  rw [pyStrip, stripLeft_cons_of_not_space l hhead,
    stripRight_of_lastNonSpace hlast]

example : pyStrip [' ', 'a', ' '] = ['a'] := by decide
example : pySplit2 ['a', ' ', ' ', 'b'] = [['a'], [], ['b']] := by decide

/-! ### Lemmas about replay, the log, and the live store -/

lemma replayEntries_loop (lines : List Str) (acc : List (Str × Str)) :
    lines.foldl replayStep acc = acc ++ lines.filterMap lineEntry := by
  induction lines generalizing acc with
  | nil => simp
  | cons l ls ih =>
    rw [List.foldl_cons, ih, List.filterMap_cons]
    cases h : lineEntry l with
    | none => simp [replayStep, h]
    | some e => simp [replayStep, h]

lemma replayEntries_eq_filterMap (lines : List Str) :
    replayEntries lines = lines.filterMap lineEntry := by
  rw [replayEntries, replayEntries_loop]; rfl

lemma lineEntry_nil : lineEntry [] = none := rfl

lemma lineEntry_good {k v : Str} (hk : GoodKey k) (hv : GoodVal v) :
    lineEntry (['S', 'E', 'T', ' '] ++ k ++ ' ' :: v) = some (k, v) := by
  obtain ⟨hk0, hks, -⟩ := hk
  obtain ⟨-, -, hvl⟩ := hv
  have hv0 : v ≠ [] := lastNonSpace_ne_nil hvl
  have hline : ('S' :: ('E' :: 'T' :: ' ' :: (k ++ ' ' :: v)) : Str) =
      ['S', 'E', 'T', ' '] ++ k ++ ' ' :: v := by simp
  have hlast : lastNonSpace ('S' :: ('E' :: 'T' :: ' ' :: (k ++ ' ' :: v))) = true := by
    rw [hline]
    rw [show (['S', 'E', 'T', ' '] ++ k ++ ' ' :: v : Str) =
      (['S', 'E', 'T', ' '] ++ k ++ [' ']) ++ v by simp]
    rw [lastNonSpace_append hv0]
    exact hvl
  have hstrip : pyStrip (['S', 'E', 'T', ' '] ++ k ++ ' ' :: v) =
      ['S', 'E', 'T', ' '] ++ k ++ ' ' :: v := by
    rw [← hline]
    exact hline ▸ pyStrip_of_good (by decide) hlast
  have hsp1 : splitOnce ' ' (['S', 'E', 'T', ' '] ++ k ++ ' ' :: v) =
      some (['S', 'E', 'T'], k ++ ' ' :: v) := by
    rw [show (['S', 'E', 'T', ' '] ++ k ++ ' ' :: v : Str) =
      ['S', 'E', 'T'] ++ ' ' :: (k ++ ' ' :: v) by simp]
    exact splitOnce_append (by decide)
  have hsp2 : splitOnce ' ' (k ++ ' ' :: v) = some (k, v) := splitOnce_append hks
  have hparts : pySplit2 (['S', 'E', 'T', ' '] ++ k ++ ' ' :: v) =
      [['S', 'E', 'T'], k, v] := by
    simp only [pySplit2, hsp1, hsp2]
  rw [lineEntry]
  simp only [hstrip, hparts]
  rw [if_neg (by simp), if_pos (by decide)]

lemma record_cons_line (k v : Str) (rest : Str) :
    record k v ++ rest = (['S', 'E', 'T', ' '] ++ k ++ ' ' :: v) ++ '\n' :: rest := by
  simp [record]

lemma not_mem_line {c : Char} {k v : Str} (hck : c ∉ k) (hcv : c ∉ v)
    (hS : ¬c = 'S') (hE : ¬c = 'E') (hT : ¬c = 'T') (hsp : ¬c = ' ') :
    c ∉ (['S', 'E', 'T', ' '] ++ k ++ ' ' :: v : Str) := by
  intro hm
  rcases List.mem_append.mp hm with hm1 | hm2
  · rcases List.mem_append.mp hm1 with hm3 | hm4
    · simp only [List.mem_cons, List.not_mem_nil, or_false] at hm3
      rcases hm3 with h | h | h | h
      exacts [hS h, hE h, hT h, hsp h]
    · exact hck hm4
  · rcases List.mem_cons.mp hm2 with hm5 | hm6
    · exact hsp hm5
    · exact hcv hm6

lemma not_newline_mem_line {k v : Str} (hk : GoodKey k) (hv : GoodVal v) :
    '\n' ∉ (['S', 'E', 'T', ' '] ++ k ++ ' ' :: v : Str) :=
  not_mem_line hk.2.2 hv.1 (by decide) (by decide) (by decide) (by decide)

lemma not_cr_mem_line {k v : Str} (hk : CleanKey k) (hv : GoodVal v) :
    '\r' ∉ (['S', 'E', 'T', ' '] ++ k ++ ' ' :: v : Str) :=
  not_mem_line hk.2 hv.2.1 (by decide) (by decide) (by decide) (by decide)

lemma pyLines_recordsOf {ops : List (Str × Str)} (h : GoodOps ops) :
    pyLines (recordsOf ops) =
      ops.map (fun p => ['S', 'E', 'T', ' '] ++ p.1 ++ ' ' :: p.2) ++ [[]] := by
  induction ops with
  | nil => rfl
  | cons p ops ih =>
    obtain ⟨hk, hv⟩ := h p (List.mem_cons_self p ops)
    have hops : GoodOps ops := fun q hq => h q (List.mem_cons_of_mem p hq)
    rw [recordsOf, record_cons_line, pyLines,
      splitUniv_append_clean (not_newline_mem_line hk.1 hv) (not_cr_mem_line hk hv)]
    rw [pyLines] at ih
    rw [ih hops, List.map_cons]
    simp

lemma replay_recordsOf {ops : List (Str × Str)} (h : GoodOps ops) :
    replayEntries (pyLines (recordsOf ops)) = ops := by
  rw [replayEntries_eq_filterMap, pyLines_recordsOf h, List.filterMap_append]
  have h2 : List.filterMap lineEntry [([] : Str)] = [] := by
    simp [lineEntry_nil]
  rw [h2, List.append_nil]
  induction ops with
  | nil => rfl
  | cons p ops ih =>
    obtain ⟨hk, hv⟩ := h p (List.mem_cons_self p ops)
    have hops : GoodOps ops := fun q hq => h q (List.mem_cons_of_mem p hq)
    rw [List.map_cons, List.filterMap_cons, lineEntry_good hk.1 hv, ih hops]

lemma runSets_loop (s : Store) (ops : List (Str × Str)) :
    (ops.foldl (fun s p => s.set p.1 p.2) s).log = s.log ++ recordsOf ops ∧
      (ops.foldl (fun s p => s.set p.1 p.2) s).entries = s.entries ++ ops := by
  induction ops generalizing s with
  | nil => simp [recordsOf]
  | cons p ops ih =>
    rw [List.foldl_cons]
    obtain ⟨h1, h2⟩ := ih (s.set p.1 p.2)
    constructor
    · rw [h1, Store.set, recordsOf]; simp
    · rw [h2, Store.set]; simp

lemma runSets_log (ops : List (Str × Str)) : (runSets ops).log = recordsOf ops :=
  (runSets_loop (mkStore []) ops).1

lemma runSets_entries (ops : List (Str × Str)) : (runSets ops).entries = ops :=
  (runSets_loop (mkStore []) ops).2

lemma lookupRev_of_forall_ne {k : Str} {es : List (Str × Str)}
    (h : ∀ p ∈ es, p.1 ≠ k) : lookupRev es k = none := by
  induction es with
  | nil => rfl
  | cons p es ih =>
    obtain ⟨k0, v0⟩ := p
    have hne : k0 ≠ k := h (k0, v0) (List.mem_cons_self _ _)
    rw [lookupRev, if_neg hne]
    exact ih fun q hq => h q (List.mem_cons_of_mem _ hq)

lemma lookupRev_append {k v : Str} {a b : List (Str × Str)}
    (ha : ∀ p ∈ a, p.1 ≠ k) : lookupRev (a ++ (k, v) :: b) k = some v := by
  induction a with
  | nil => simp [lookupRev]
  | cons p a ih =>
    obtain ⟨k0, v0⟩ := p
    have hne : k0 ≠ k := ha (k0, v0) (List.mem_cons_self _ _)
    rw [List.cons_append, lookupRev, if_neg hne]
    exact ih fun q hq => ha q (List.mem_cons_of_mem _ hq)

lemma get_last_match {ops post : List (Str × Str)} {k v : Str} (s : Store)
    (hentries : s.entries = ops ++ (k, v) :: post)
    (hpost : ∀ p ∈ post, p.1 ≠ k) : s.get k = some v := by
  rw [Store.get, hentries, List.reverse_append, List.reverse_cons, List.append_assoc]
  exact lookupRev_append fun p hp => hpost p (List.mem_reverse.mp hp)

lemma recordsOf_append (a b : List (Str × Str)) :
    recordsOf (a ++ b) = recordsOf a ++ recordsOf b := by
  induction a with
  | nil => rfl
  | cons p a ih => rw [List.cons_append, recordsOf, recordsOf, ih, List.append_assoc]

lemma live_log {s : Store} (h : Live s) : s.log = recordsOf s.entries := by
  induction h with
  | init => rfl
  | step s k v _ ih =>
    rw [Store.set, recordsOf_append, ih]
    simp [recordsOf]

lemma mkStore_entries (content : Str) :
    (mkStore content).entries = replayEntries (pyLines content) := rfl

lemma mkStore_nil : mkStore [] = ⟨[], []⟩ := rfl

lemma lineEntry_of_short {bad : Str}
    (h : (pySplit2 (pyStrip bad)).length < 3) : lineEntry bad = none := by
  simp only [lineEntry]
  split
  · rfl
  · split
    · rename_i heq
      rw [heq] at h
      simp at h
    · rfl

/-! ### Spaces of a stripped infix: the machinery behind corruption
tolerance.  A malformed trailing line whose stripped form holds at most
one space cannot yield a three-field record under replay, and neither can
any of the universal-newline sub-lines it decomposes into, because the
stripped form of such a sub-line is an infix of the stripped whole. -/

lemma stripLeft_suffix (l : Str) : stripLeft l <:+ l := List.dropWhile_suffix pyIsSpace

lemma stripRight_prefix_self (l : Str) : stripRight l <+: l := by
  have h2 : (stripRight l).reverse <:+ l.reverse := by
    rw [stripRight, List.reverse_reverse]
    exact List.dropWhile_suffix pyIsSpace
  exact List.reverse_suffix.mp h2

lemma pyStrip_infix_self (l : Str) : pyStrip l <:+: l :=
  (stripRight_prefix_self (stripLeft l)).isInfix.trans (stripLeft_suffix l).isInfix

lemma dropWhile_head_false {p : Char → Bool} :
    ∀ {l : Str} {c : Char} {t : Str}, l.dropWhile p = c :: t → p c = false := by
  intro l
  induction l with
  | nil => intro c t h; simp at h
  | cons x xs ih =>
    intro c t h
    rw [List.dropWhile_cons] at h
    by_cases hx : p x
    · rw [if_pos hx] at h
      exact ih h
    · rw [if_neg hx] at h
      injection h with h1 h2
      cases hpc : p c
      · rfl
      · rw [h1] at hx
        exact absurd hpc hx

lemma pyStrip_head_false {l : Str} {c : Char} {t : Str} (h : pyStrip l = c :: t) :
    pyIsSpace c = false := by
  have hpre : c :: t <+: stripLeft l := h ▸ stripRight_prefix_self (stripLeft l)
  obtain ⟨r, hr⟩ := hpre
  have hr2 : List.dropWhile pyIsSpace l = c :: (t ++ r) := by
    have h3 := hr.symm
    simpa [stripLeft] using h3
  exact dropWhile_head_false hr2

lemma pyStrip_lastNonSpace {l : Str} {c : Char} {t : Str}
    (h : pyStrip l = c :: t) : lastNonSpace (pyStrip l) = true := by
  have hrev : (pyStrip l).reverse = (stripLeft l).reverse.dropWhile pyIsSpace := by
    rw [pyStrip, stripRight, List.reverse_reverse]
  cases hd : (pyStrip l).reverse with
  | nil => rw [h] at hd; simp at hd
  | cons d u =>
    rw [hrev] at hd
    have hdf : pyIsSpace d = false := dropWhile_head_false hd
    have hd2 : (pyStrip l).reverse = d :: u := by rw [hrev, hd]
    simp only [lastNonSpace, hd2, hdf]
    rfl

lemma infix_dropWhile_of_head {p : Char → Bool} {c : Char} {t s : Str}
    (h : c :: t <:+: s) (hc : p c = false) : c :: t <:+: s.dropWhile p := by
  obtain ⟨u, w, huw⟩ := h
  rw [← huw, List.append_assoc, List.dropWhile_append]
  by_cases he : (u.dropWhile p).isEmpty
  · rw [if_pos he]
    have hred : List.dropWhile p ((c :: t) ++ w) = c :: (t ++ w) := by
      rw [List.cons_append, List.dropWhile_cons, hc]
      simp
    rw [hred]
    exact ⟨[], w, rfl⟩
  · rw [if_neg he]
    exact ⟨u.dropWhile p, w, by rw [List.append_assoc]⟩

lemma infix_pyStrip {q s : Str} {c : Char} {t : Str} (hq : q = c :: t)
    (hc : pyIsSpace c = false) (hlast : lastNonSpace q = true)
    (h : q <:+: s) : q <:+: pyStrip s := by
  have h1 : q <:+: stripLeft s := by
    subst hq
    exact infix_dropWhile_of_head h hc
  have h2 : q.reverse <:+: (stripLeft s).reverse := List.reverse_infix.mpr h1
  obtain ⟨d, u, hd, hdf⟩ : ∃ d u, q.reverse = d :: u ∧ pyIsSpace d = false := by
    cases hrev : q.reverse with
    | nil => subst hq; simp at hrev
    | cons d u =>
      refine ⟨d, u, rfl, ?_⟩
      have h4 := hlast
      simp only [lastNonSpace, hrev, Bool.not_eq_true'] at h4
      exact h4
  have h3 : q.reverse <:+: (stripLeft s).reverse.dropWhile pyIsSpace := by
    rw [hd] at h2 ⊢
    exact infix_dropWhile_of_head h2 hdf
  have h4 : q.reverse <:+: (stripRight (stripLeft s)).reverse := by
    rw [stripRight, List.reverse_reverse]
    exact h3
  exact List.reverse_infix.mp h4

lemma splitOnce_eq {c : Char} :
    ∀ {s a r : Str}, splitOnce c s = some (a, r) → s = a ++ c :: r ∧ c ∉ a := by
  intro s
  induction s with
  | nil => intro a r h; simp [splitOnce] at h
  | cons x xs ih =>
    intro a r h
    simp only [splitOnce] at h
    by_cases hx : x = c
    · rw [if_pos hx] at h
      injection h with h1
      injection h1 with ha hr
      subst hx
      rw [← ha, ← hr]
      exact ⟨rfl, by simp⟩
    · rw [if_neg hx] at h
      cases hsp : splitOnce c xs with
      | none => rw [hsp] at h; simp at h
      | some p =>
        obtain ⟨a2, r2⟩ := p
        rw [hsp] at h
        injection h with h1
        injection h1 with ha hr
        obtain ⟨hxs, hna⟩ := ih hsp
        rw [← ha, ← hr]
        constructor
        · rw [hxs]; rfl
        · intro hm
          rcases List.mem_cons.mp hm with h5 | h6
          · exact hx h5.symm
          · exact hna h6

lemma splitOnce_some_of_mem {c : Char} {s : Str} (hm : c ∈ s) :
    ∃ p, splitOnce c s = some p := by
  induction s with
  | nil => simp at hm
  | cons x xs ih =>
    by_cases hx : x = c
    · exact ⟨([], xs), by simp [splitOnce, hx]⟩
    · have hm2 : c ∈ xs := by
        rcases List.mem_cons.mp hm with h | h
        · exact absurd h.symm hx
        · exact h
      obtain ⟨p, hp⟩ := ih hm2
      exact ⟨(x :: p.1, p.2), by simp [splitOnce, hx, hp]⟩

lemma count_le_one_of_short {s : Str} (h : (pySplit2 s).length < 3) :
    s.count ' ' ≤ 1 := by
  cases h1 : splitOnce ' ' s with
  | none =>
    have hm : ' ' ∉ s := by
      intro hm
      obtain ⟨p, hp⟩ := splitOnce_some_of_mem hm
      rw [h1] at hp
      exact absurd hp (by simp)
    simp [List.count_eq_zero.mpr hm]
  | some p =>
    obtain ⟨a, r⟩ := p
    obtain ⟨hs, ha⟩ := splitOnce_eq h1
    cases h2 : splitOnce ' ' r with
    | none =>
      have hrm : ' ' ∉ r := by
        intro hm
        obtain ⟨q, hq⟩ := splitOnce_some_of_mem hm
        rw [h2] at hq
        exact absurd hq (by simp)
      rw [hs, List.count_append]
      simp [List.count_cons, List.count_eq_zero.mpr ha,
        List.count_eq_zero.mpr hrm]
    | some q =>
      exfalso
      obtain ⟨b, r2⟩ := q
      simp [pySplit2, h1, h2] at h

lemma pySplit2_short_of_count {s : Str} (h : s.count ' ' ≤ 1) :
    (pySplit2 s).length < 3 := by
  cases h1 : splitOnce ' ' s with
  | none => simp [pySplit2, h1]
  | some p =>
    obtain ⟨a, r⟩ := p
    obtain ⟨hs, ha⟩ := splitOnce_eq h1
    have hcnt : s.count ' ' = a.count ' ' + (r.count ' ' + 1) := by
      rw [hs, List.count_append]
      simp [List.count_cons]
    have hr0 : r.count ' ' = 0 := by omega
    have hrm : ' ' ∉ r := List.count_eq_zero.mp hr0
    simp [pySplit2, h1, splitOnce_of_not_mem hrm]

lemma lineEntry_none_of_infix {p s : Str} (hp : p <:+: s)
    (hs : (pyStrip s).count ' ' ≤ 1) : lineEntry p = none := by
  cases hq : pyStrip p with
  | nil => simp [lineEntry, hq]
  | cons c t =>
    have hc : pyIsSpace c = false := pyStrip_head_false hq
    have hl : lastNonSpace (pyStrip p) = true := pyStrip_lastNonSpace hq
    have h2 : pyStrip p <:+: s := (pyStrip_infix_self p).trans hp
    have h3 : pyStrip p <:+: pyStrip s := infix_pyStrip hq hc hl h2
    have hcount : (pyStrip p).count ' ' ≤ 1 :=
      le_trans (h3.sublist.count_le ' ') hs
    exact lineEntry_of_short (pySplit2_short_of_count hcount)

example : mkStore [] = ⟨[], []⟩ := rfl

/-! ### Claim theorems -/

/-- Claim C1, counterexample: the key `k` is non-empty and newline-free and
the value `a␣` (trailing space) is newline-free, yet the fresh store built
over the live store's log holds a different Index (`strip` on replay drops
the trailing space), so the claimed byte-identity fails as stated. -/
theorem replay_not_identical_cex :
    (mkStore (runSets [(['k'], ['a', ' '])]).log).entries ≠
        (runSets [(['k'], ['a', ' '])]).entries ∧
      (runSets [(['k'], ['a', ' '])]).get ['k'] = some ['a', ' '] ∧
      (mkStore (runSets [(['k'], ['a', ' '])]).log).get ['k'] = some ['a'] := by
  decide

/-- Claim C1, amended: for a sequence of `set` calls whose keys are
non-empty and contain no space and no line terminator (neither `\n` nor
`\r`), and whose values contain no line terminator and end in a character
outside Python's whitespace set, a fresh store constructed over the live
store's log holds a byte-identical Index, and hence returns identical
`get` results for every key. -/
theorem replay_idempotent_good (ops : List (Str × Str)) (h : GoodOps ops) :
    (mkStore (runSets ops).log).entries = (runSets ops).entries ∧
      ∀ k, (mkStore (runSets ops).log).get k = (runSets ops).get k := by
  have he : (mkStore (runSets ops).log).entries = (runSets ops).entries := by
    rw [runSets_log, mkStore_entries, replay_recordsOf h, runSets_entries]
  exact ⟨he, fun k => by rw [Store.get, Store.get, he]⟩

theorem replay_idempotent_good_witness :
    (mkStore (runSets [(['a'], ['1']), (['b'], ['2']), (['a'], ['3'])]).log).entries =
        (runSets [(['a'], ['1']), (['b'], ['2']), (['a'], ['3'])]).entries ∧
      ∀ k,
        (mkStore (runSets [(['a'], ['1']), (['b'], ['2']), (['a'], ['3'])]).log).get k =
          (runSets [(['a'], ['1']), (['b'], ['2']), (['a'], ['3'])]).get k :=
  replay_idempotent_good [(['a'], ['1']), (['b'], ['2']), (['a'], ['3'])] (by decide)

/-- Claim C2, counterexample: after `set` of key `d` with the newline-free
value `x␣` (trailing space), a fresh store over the same log returns `x`,
not the value that was set, so durability fails as stated. -/
theorem durable_restart_cex :
    (mkStore ((mkStore []).set ['d'] ['x', ' ']).log).get ['d'] = some ['x'] ∧
      ¬(mkStore ((mkStore []).set ['d'] ['x', ' ']).log).get ['d'] =
          some ['x', ' '] := by
  decide

/-- Claim C2, amended: in a sequence of `set` calls whose keys are
non-empty, space-free and free of line terminators (`\n` and `\r`) and
whose values are free of line terminators and end in a character outside
Python's whitespace set, after `set k v` with no later `set` of `k`, a
fresh store constructed over the same log returns `v` for `get k`. -/
theorem durable_restart_good (pre post : List (Str × Str)) (k v : Str)
    (h : GoodOps (pre ++ (k, v) :: post)) (hpost : ∀ p ∈ post, p.1 ≠ k) :
    (mkStore (runSets (pre ++ (k, v) :: post)).log).get k = some v := by
  have he : (mkStore (runSets (pre ++ (k, v) :: post)).log).entries =
      pre ++ (k, v) :: post := by
    rw [runSets_log, mkStore_entries, replay_recordsOf h]
  exact get_last_match _ he hpost

theorem durable_restart_good_witness :
    (mkStore (runSets ([(['a'], ['1'])] ++ (['k'], ['7']) :: [(['b'], ['2'])])).log).get
        ['k'] = some ['7'] :=
  durable_restart_good [(['a'], ['1'])] [(['b'], ['2'])] ['k'] ['7'] (by decide)
    (by decide)

/-- Claim C3: on a single live store, after a sequence of `set` calls in
which the last `set` of key `k` carried value `v` (later calls, if any,
set other keys), `get k` returns `v`; `get` scans the entries from tail to
head and returns the first match. Holds for arbitrary keys and values,
since the live path performs no parsing. -/
theorem last_write_wins (ops post : List (Str × Str)) (k v : Str)
    (hpost : ∀ p ∈ post, p.1 ≠ k) :
    (runSets (ops ++ (k, v) :: post)).get k = some v :=
  get_last_match _ (runSets_entries _) hpost

theorem last_write_wins_witness :
    (runSets ([(['a'], ['1'])] ++ (['a'], ['3']) :: [(['b'], ['2'])])).get ['a'] =
      some ['3'] :=
  last_write_wins [(['a'], ['1'])] [(['b'], ['2'])] ['a'] ['3'] (by decide)

/-- Claim C4: over a log consisting of newline-free lines followed by one
appended malformed line (a line whose stripped form splits into fewer than
three space-separated fields, which includes a blank line), store
construction produces exactly the Index of the log without the malformed
line — the malformed line yields no entry and no error (construction is a
total function by definition), and every `get` result is unchanged, so all
well-formed preceding records remain retrievable. -/
theorem corrupted_tail_tolerant (lines : List Str) (bad : Str)
    (hl : ∀ l ∈ lines, '\n' ∉ l) (hb : '\n' ∉ bad)
    (hbad : (pySplit2 (pyStrip bad)).length < 3) :
    (mkStore (joinNl lines ++ bad)).entries = (mkStore (joinNl lines)).entries ∧
      ∀ k, (mkStore (joinNl lines ++ bad)).get k = (mkStore (joinNl lines)).get k := by
  obtain ⟨pre, hpre⟩ := splitUniv_joinNl hl
  have hbadpieces : ∀ p ∈ splitUniv bad, lineEntry p = none := by
    intro p hp
    rw [splitUniv_eq_splitOnChar hb] at hp
    exact lineEntry_none_of_infix (infix_of_mem_splitOnChar hp)
      (count_le_one_of_short hbad)
  have e1 : splitUniv (joinNl lines ++ bad) = pre ++ splitUniv bad := hpre bad
  have e2 : splitUniv (joinNl lines) = pre ++ splitUniv [] := by
    have h3 := hpre []
    rwa [List.append_nil] at h3
  have he : (mkStore (joinNl lines ++ bad)).entries =
      (mkStore (joinNl lines)).entries := by
    rw [mkStore_entries, mkStore_entries, replayEntries_eq_filterMap,
      replayEntries_eq_filterMap, pyLines, pyLines, e1, e2,
      List.filterMap_append, List.filterMap_append,
      List.filterMap_eq_nil_iff.mpr hbadpieces]
    simp [splitUniv, lineEntry_nil]
  exact ⟨he, fun k => by rw [Store.get, Store.get, he]⟩

theorem corrupted_tail_tolerant_witness :
    (mkStore (joinNl [['S', 'E', 'T', ' ', 'a', ' ', '1']] ++
          ['S', 'E', 'T', ' ', 'a'])).entries =
        (mkStore (joinNl [['S', 'E', 'T', ' ', 'a', ' ', '1']])).entries ∧
      ∀ k,
        (mkStore (joinNl [['S', 'E', 'T', ' ', 'a', ' ', '1']] ++
              ['S', 'E', 'T', ' ', 'a'])).get k =
          (mkStore (joinNl [['S', 'E', 'T', ' ', 'a', ' ', '1']])).get k :=
  corrupted_tail_tolerant [['S', 'E', 'T', ' ', 'a', ' ', '1']]
    ['S', 'E', 'T', ' ', 'a'] (by decide) (by decide) (by decide)

example :
    (runSets [(['a'], ['1']), (['b'], ['2']), (['a'], ['3'])]).get ['c'] = none := by
  decide

/-- Claim C5, counterexample: after `set` of key `k` with the empty value,
the live store returns the empty string, but a fresh store over the same
log returns the absent marker — the written line `SET k ␣` strips to
`SET k`, two fields, and is discarded on replay — so the claim's
conclusion that `get k` returns the empty string after a restart fails. -/
theorem empty_value_restart_cex :
    ((mkStore []).set ['k'] []).get ['k'] = some [] ∧
      (mkStore ((mkStore []).set ['k'] []).log).get ['k'] = none := by
  decide

/-- Claim C5, amended: for a non-empty key with no space, no newline and a
non-whitespace final character, `set k ""` writes the line `SET k ␣` and
the live store returns the empty string for `get k`; but the written line
is not a well-formed record under replay — its stripped form has only two
fields — so a fresh store over the same log holds no entry at all, and
`get k` after the restart returns the absent marker. -/
theorem empty_value_semantics (k : Str) (hk : GoodKey k)
    (hlast : lastNonSpace k = true) :
    ((mkStore []).set k []).get k = some [] ∧
      (mkStore ((mkStore []).set k []).log).entries = [] := by
  obtain ⟨hk0, hks, hkn⟩ := hk
  constructor
  · simp [Store.get, Store.set, mkStore_nil, lookupRev]
  · have hrec : ((mkStore []).set k []).log =
        (['S', 'E', 'T', ' '] ++ k ++ [' ']) ++ '\n' :: [] := by
      simp [Store.set, mkStore_nil, record]
    have hnl : '\n' ∉ (['S', 'E', 'T', ' '] ++ k ++ [' '] : Str) := by
      intro hm
      rcases List.mem_append.mp hm with hm1 | hm2
      · rcases List.mem_append.mp hm1 with hm3 | hm4
        · simp at hm3
        · exact hkn hm4
      · simp at hm2
    obtain ⟨h, t, hpre, htl, hchunk⟩ := splitUniv_chunk hnl
    have hcount : (pyStrip (['S', 'E', 'T', ' '] ++ k ++ [' '])).count ' ' ≤ 1 := by
      have hsl : stripLeft (['S', 'E', 'T', ' '] ++ k ++ [' ']) =
          ['S', 'E', 'T', ' '] ++ k ++ [' '] :=
        stripLeft_cons_of_not_space (['E', 'T', ' '] ++ k ++ [' ']) (by decide)
      have hsr : stripRight (['S', 'E', 'T', ' '] ++ k ++ [' ']) =
          stripRight (['S', 'E', 'T', ' '] ++ k) :=
        stripRight_append_space (['S', 'E', 'T', ' '] ++ k) (by decide)
      have hsub : (stripRight (['S', 'E', 'T', ' '] ++ k)).count ' ' ≤
          (['S', 'E', 'T', ' '] ++ k : Str).count ' ' :=
        (stripRight_prefix_self _).sublist.count_le ' '
      have hck : (['S', 'E', 'T', ' '] ++ k : Str).count ' ' = 1 := by
        rw [List.count_append, List.count_eq_zero.mpr hks]
        decide
      rw [pyStrip, hsl, hsr]
      omega
    have hall : ∀ p ∈ h :: t, lineEntry p = none := by
      intro p hp
      rcases List.mem_cons.mp hp with rfl | hp2
      · exact lineEntry_none_of_infix hpre.isInfix hcount
      · exact lineEntry_none_of_infix (htl p hp2) hcount
    rw [hrec, mkStore_entries, pyLines, hchunk [], replayEntries_eq_filterMap,
      List.filterMap_append, List.filterMap_eq_nil_iff.mpr hall]
    simp [splitUniv, lineEntry_nil]

theorem empty_value_semantics_witness :
    ((mkStore []).set ['k'] []).get ['k'] = some [] ∧
      (mkStore ((mkStore []).set ['k'] []).log).entries = [] :=
  empty_value_semantics ['k'] (by decide) (by decide)

/-- Claim C6: at every state reachable from a store over an initially
empty log — after any number of completed `set` calls, or at the crash
point inside `set` after the durable log append (write, flush, fsync) but
before the in-memory append, the only interruption point the source's
ordering admits — the log is exactly the serialised records of the Index
entries, possibly followed by one already-logged pending record. The Index
therefore never holds an entry whose record is absent from the log: the
log append strictly precedes the Index append. -/
theorem no_index_ahead_of_log (t : Store)
    (h : Live t ∨ ∃ s k v, Live s ∧ t = ⟨s.log ++ record k v, s.entries⟩) :
    ∃ pending, t.log = recordsOf t.entries ++ pending ∧
      (pending = [] ∨ ∃ k v, pending = record k v) := by
  rcases h with hl | ⟨s, k, v, hs, rfl⟩
  · exact ⟨[], by rw [live_log hl, List.append_nil], Or.inl rfl⟩
  · refine ⟨record k v, ?_, Or.inr ⟨k, v, rfl⟩⟩
    show s.log ++ record k v = recordsOf s.entries ++ record k v
    rw [live_log hs]

theorem no_index_ahead_of_log_witness :
    ∃ pending, (⟨record ['a'] ['1'], []⟩ : Store).log =
        recordsOf (⟨record ['a'] ['1'], []⟩ : Store).entries ++ pending ∧
      (pending = [] ∨ ∃ k v, pending = record k v) :=
  no_index_ahead_of_log ⟨record ['a'] ['1'], []⟩
    (Or.inr ⟨⟨[], []⟩, ['a'], ['1'], Live.init, rfl⟩)

/-- Claim C7: for every line whose stripped form splits into three fields
`[cmd, key, value]`, replay appends the entry `(key, value)` exactly when
the command field upper-cases to `SET` (so `set`, `SeT` qualify); any
other command token produces no entry and no error. -/
theorem replay_command_filtering (line cmd key value : Str)
    (h : pySplit2 (pyStrip line) = [cmd, key, value]) :
    lineEntry line = if pyUpper cmd = setTok then some (key, value) else none := by
  have hne : ¬pyStrip line = [] := by
    intro h0
    rw [h0] at h
    simp [pySplit2, splitOnce] at h
  simp only [lineEntry, h, if_neg hne]

theorem replay_command_filtering_witness :
    lineEntry ['s', 'e', 't', ' ', 'a', ' ', 'b'] =
      if pyUpper ['s', 'e', 't'] = setTok then some (['a'], ['b']) else none :=
  replay_command_filtering ['s', 'e', 't', ' ', 'a', ' ', 'b'] ['s', 'e', 't']
    ['a'] ['b'] (by decide)

/-- Claim C8: `get` on a key that appears in no Index entry returns the
absent marker `none` rather than an error; `get` is a pure function of the
store (it takes the state and returns only an `Option`, so the state is
unchanged by construction). -/
theorem get_absent_none (s : Store) (key : Str)
    (h : ∀ p ∈ s.entries, p.1 ≠ key) : s.get key = none := by
  rw [Store.get]
  exact lookupRev_of_forall_ne fun p hp => h p (List.mem_reverse.mp hp)

theorem get_absent_none_witness :
    (runSets [(['a'], ['1'])]).get ['b'] = none :=
  get_absent_none (runSets [(['a'], ['1'])]) ['b'] (by decide)

/-- Claim C9, counterexample: calling `set` with the empty key is not
rejected by the store — the record `SET ␣v` is appended to the log and the
entry `("", v)` to the Index; validation of empty keys lives only in the
excluded command loop. -/
theorem empty_key_not_rejected_cex :
    ((mkStore []).set [] ['v']).entries = [([], ['v'])] ∧
      ((mkStore []).set [] ['v']).log =
        ['S', 'E', 'T', ' ', ' ', 'v', '\n'] := by
  decide

/-- Claim C9, amended: `KVStore.set` performs no validation at the store
boundary: with an empty key it appends the serialised record to the log
and the pair `("", v)` to the Index exactly as for any other key;
rejection of empty keys happens only in the excluded caller-facing
command loop. -/
theorem empty_key_accepted (v : Str) :
    ((mkStore []).set [] v).entries = [([], v)] ∧
      ((mkStore []).set [] v).log = record [] v := by
  constructor
  · simp [Store.set, mkStore_nil]
  · simp [Store.set, mkStore_nil]

/-- Claim C10: replay is a total function of the log content — store
construction is defined for every content (the embedding of `_replay_log`
is a structurally recursive fold, so it terminates and raises nothing),
the resulting Index is the per-line `filterMap` of the replay parse (each
line contributes exactly one entry or is skipped independently), and
consequently the Index never holds more entries than the log has lines. -/
theorem replay_total (content : Str) :
    (mkStore content).entries = (pyLines content).filterMap lineEntry ∧
      (mkStore content).entries.length ≤ (pyLines content).length := by
  have he : (mkStore content).entries = (pyLines content).filterMap lineEntry := by
    rw [mkStore_entries, replayEntries_eq_filterMap]
  exact ⟨he, by rw [he]; exact List.length_filterMap_le lineEntry (pyLines content)⟩

end KV
